import Mathlib

/-!
Shallow embedding of `src/flashcore/src/vector_search.cpp`.

Modelling conventions:
* C++ `int` fields and arguments are embedded as `Int`; `std::size_t`
  quantities as `Nat`.  The implicit arithmetic conversion of an `int` to
  `size_t` (two's complement, 64-bit) is `size_t_of_int` below; it is the
  crux of the comparison `index->vectors.size() >= index->max_elements`.
* `float` data is idealised as exact rational arithmetic (`ℚ`), with the
  final square root landing in `ℝ`.
* The source computes `distance = sqrt(Σ diff²)` per entry and then sorts
  the `(distance, id)` pairs with `std::sort`'s lexicographic `<` on
  `std::pair`.  Because `Real.sqrt` is strictly monotone on nonnegative
  inputs, sorting `(sqrt s, id)` pairs produces exactly the image of
  sorting the `(s, id)` pairs; the computable core `search_vector_in_index`
  therefore sorts squared distances, and `search_results` applies the
  square root afterwards.  Lemma `sorted_map_sqrtPair` proves the bridge.
* `std::sort`'s comparator here is a total order whose equivalent elements
  are identical pairs, so the sorted sequence of values is unique and is
  faithfully produced by `List.insertionSort` with the same order.
-/

namespace FlashCore

/-- The `hnsw_index` struct: `dimensions`, `max_elements` (both C++ `int`)
and the ordered sequence of `(id, vector)` entries. -/
structure hnsw_index where
  dimensions : Int
  max_elements : Int
  vectors : List (Int × List ℚ)
deriving DecidableEq

/-- Value of a C++ `int` after the implicit conversion to the unsigned
64-bit `std::size_t` (two's complement wrap-around). -/
def size_t_of_int (n : Int) : Nat := (n % (2 : Int) ^ 64).toNat

/-- `create_hnsw_index`: allocates the struct and stores the two fields;
the source performs no validation of either argument. -/
def create_hnsw_index (dimensions : Int) (max_elements : Int) : hnsw_index :=
  { dimensions := dimensions, max_elements := max_elements, vectors := [] }

/-- `add_vector_to_index`: returns `-1` (index full) when
`vectors.size() >= max_elements` — a `size_t` versus `int` comparison that
converts `max_elements` to `size_t` — and otherwise appends
`(id, first dimensions elements of vector)` and returns `0`.  When
`dimensions` is negative or the input buffer is shorter than `dimensions`,
the source's pointer-range copy is undefined behaviour; the `take` here is
a defined stand-in for that corner, and no theorem below exercises it
(`dimensions = 0` is a valid empty range in the source and is
exercised). -/
def add_vector_to_index (index : hnsw_index) (vector : List ℚ) (id : Int) :
    Int × hnsw_index :=
  if size_t_of_int index.max_elements ≤ index.vectors.length then
    (-1, index)
  else
    (0, { index with
          vectors := index.vectors ++ [(id, vector.take index.dimensions.toNat)] })

/-- The accumulation loop `for i in [0, dimensions): distance += diff * diff`
with `diff = query[i] - stored[i]`.  Out-of-range reads (undefined behaviour
in the source) are given the default value `0`. -/
def sq_dist (dimensions : Nat) (query stored : List ℚ) : ℚ :=
  (List.range dimensions).foldl
    (fun acc i => acc + (query.getD i 0 - stored.getD i 0) * (query.getD i 0 - stored.getD i 0))
    0

/-- Lexicographic order on `(squared distance, id)` pairs, mirroring
`operator<` on `std::pair<float, int>` applied to the per-entry keys. -/
def distLe (a b : ℚ × Int) : Prop :=
  a.1 < b.1 ∨ (a.1 = b.1 ∧ a.2 ≤ b.2)

instance : DecidableRel distLe := fun a b => by
  unfold distLe; infer_instance

instance : IsTotal (ℚ × Int) distLe where
  total a b := by
    rcases lt_trichotomy a.1 b.1 with h | h | h
    · exact Or.inl (Or.inl h)
    · rcases Int.le_total a.2 b.2 with h2 | h2
      · exact Or.inl (Or.inr ⟨h, h2⟩)
      · exact Or.inr (Or.inr ⟨h.symm, h2⟩)
    · exact Or.inr (Or.inl h)

instance : IsTrans (ℚ × Int) distLe where
  trans a b c hab hbc := by
    rcases hab with h1 | ⟨h1, h1'⟩ <;> rcases hbc with h2 | ⟨h2, h2'⟩
    · exact Or.inl (h1.trans h2)
    · exact Or.inl (h2 ▸ h1)
    · exact Or.inl (h1 ▸ h2)
    · exact Or.inr ⟨h1.trans h2, h1'.trans h2'⟩

/-- The `distances` vector built by the scan loop: one
`(squared distance, id)` key per stored entry, in storage order. -/
def dist_pairs (index : hnsw_index) (query : List ℚ) : List (ℚ × Int) :=
  index.vectors.map fun p => (sq_dist index.dimensions.toNat query p.2, p.1)

/-- `search_vector_in_index`: rejects `k <= 0 || k > vectors.size()` with
`-1` (modelled as `none`), otherwise sorts the `(distance, id)` keys and
returns the first `min(k, distances.size())` of them as `(id, key)` pairs,
exactly as the output arrays `result_ids` / `result_distances` are filled.
The second component is the index state after the call (the function never
assigns to the index, so it is returned unchanged).  Keys are squared
distances; `search_results` applies the final square root. -/
def search_vector_in_index (index : hnsw_index) (query : List ℚ) (k : Int) :
    Option (List (Int × ℚ)) × hnsw_index :=
  if k ≤ 0 ∨ index.vectors.length < k.toNat then
    (none, index)
  else
    let sorted := List.insertionSort distLe (dist_pairs index query)
    let result_count := min k.toNat sorted.length
    (some ((sorted.take result_count).map fun p => (p.2, p.1)), index)

/-- User-visible search results: `(id, Euclidean distance)` pairs, the
distance being the square root of the sorted squared-distance key. -/
noncomputable def search_results (index : hnsw_index) (query : List ℚ) (k : Int) :
    Option (List (Int × ℝ)) :=
  (search_vector_in_index index query k).1.map
    (List.map fun p => (p.1, Real.sqrt (p.2 : ℝ)))

/-- Euclidean distance as the specification states it: the square root of
the sum over `i ∈ [0, dimensions)` of the squared component differences. -/
noncomputable def euclidean_distance (dimensions : Nat) (q v : List ℚ) : ℝ :=
  Real.sqrt (∑ i ∈ Finset.range dimensions,
    ((q.getD i 0 : ℝ) - (v.getD i 0 : ℝ)) ^ 2)

/-- Folding a sequence of `insert` calls over an index state. -/
def insertAll (index : hnsw_index) (ops : List (List ℚ × Int)) : hnsw_index :=
  ops.foldl (fun s op => (add_vector_to_index s op.1 op.2).2) index

/-- On nonnegative in-range values the `size_t` conversion is the identity. -/
theorem size_t_of_int_eq_toNat {n : Int} (h0 : 0 ≤ n) (h1 : n < 2 ^ 64) :
    size_t_of_int n = n.toNat := by
  unfold size_t_of_int
  omega

/-- The accumulation loop computes the sum of the squared differences. -/
theorem sq_dist_eq_sum (d : Nat) (q v : List ℚ) :
    sq_dist d q v =
      ∑ i ∈ Finset.range d, (q.getD i 0 - v.getD i 0) * (q.getD i 0 - v.getD i 0) := by
  have h : ∀ (n : Nat) (f : Nat → ℚ),
      (List.range n).foldl (fun acc i => acc + f i) 0 = ∑ i ∈ Finset.range n, f i := by
    intro n f
    induction n with
    | zero => simp
    | succ m ih => rw [List.range_succ, List.foldl_append, ih, Finset.sum_range_succ]; simp
  exact h d _

theorem sq_dist_nonneg (d : Nat) (q v : List ℚ) : 0 ≤ sq_dist d q v := by
  rw [sq_dist_eq_sum]
  exact Finset.sum_nonneg fun i _ => mul_self_nonneg _

/-- The square root of the loop's value is the specification's Euclidean
distance formula. -/
theorem sqrt_sq_dist (d : Nat) (q v : List ℚ) :
    Real.sqrt ((sq_dist d q v : ℚ) : ℝ) = euclidean_distance d q v := by
  unfold euclidean_distance
  congr 1
  rw [sq_dist_eq_sum]
  push_cast
  simp [pow_two]

/-- The sorted key list has one key per stored entry. -/
theorem length_sorted_dist_pairs (index : hnsw_index) (query : List ℚ) :
    (List.insertionSort distLe (dist_pairs index query)).length = index.vectors.length := by
  rw [(List.perm_insertionSort distLe (dist_pairs index query)).length_eq]
  simp [dist_pairs]

/-- Successful-path form of the search result. -/
theorem search_eq_of_valid (index : hnsw_index) (query : List ℚ) {k : Int}
    (h1 : 0 < k) (h2 : k.toNat ≤ index.vectors.length) :
    (search_vector_in_index index query k).1 =
      some (((List.insertionSort distLe (dist_pairs index query)).take k.toNat).map
        fun p => (p.2, p.1)) := by
  unfold search_vector_in_index
  rw [if_neg (by omega)]
  simp only [length_sorted_dist_pairs]
  rw [min_eq_left h2]

/-- Insertion never changes `dimensions` or `max_elements`. -/
theorem add_preserves_params (s : hnsw_index) (v : List ℚ) (id : Int) :
    ((add_vector_to_index s v id).2).dimensions = s.dimensions ∧
    ((add_vector_to_index s v id).2).max_elements = s.max_elements := by
  unfold add_vector_to_index
  split <;> exact ⟨rfl, rfl⟩

/-- Insertion preserves the capacity bound on the stored count. -/
theorem add_length_le (s : hnsw_index) (v : List ℚ) (id : Int)
    (h : s.vectors.length ≤ size_t_of_int s.max_elements) :
    ((add_vector_to_index s v id).2).vectors.length ≤ size_t_of_int s.max_elements := by
  unfold add_vector_to_index
  split
  · exact h
  · next hcond =>
      simp only [List.length_append, List.length_cons, List.length_nil]
      omega

theorem insertAll_cons (s : hnsw_index) (op : List ℚ × Int) (ops : List (List ℚ × Int)) :
    insertAll s (op :: ops) = insertAll ((add_vector_to_index s op.1 op.2).2) ops := rfl

/-- The capacity bound is preserved along any sequence of insertions. -/
theorem insertAll_invariant (ops : List (List ℚ × Int)) :
    ∀ s : hnsw_index, s.vectors.length ≤ size_t_of_int s.max_elements →
      (insertAll s ops).vectors.length ≤ size_t_of_int s.max_elements ∧
      (insertAll s ops).max_elements = s.max_elements := by
  induction ops with
  | nil => exact fun s h => ⟨h, rfl⟩
  | cons op rest ih =>
      intro s h
      rw [insertAll_cons]
      have hp := (add_preserves_params s op.1 op.2).2
      have hl := add_length_le s op.1 op.2 h
      have hrec := ih ((add_vector_to_index s op.1 op.2).2) (by rw [hp]; exact hl)
      exact ⟨by rw [← hp]; exact hrec.1, by rw [hrec.2, hp]⟩

/-- Index of the worked example in §8 of the spec: three 4-dimensional
vectors inserted with ids 1, 2, 3 into an index of capacity 10. -/
def idx3 : hnsw_index :=
  (add_vector_to_index (add_vector_to_index (add_vector_to_index
    (create_hnsw_index 4 10) [1, 2, 3, 4] 1).2 [2, 3, 4, 5] 2).2 [3, 4, 5, 6] 3).2

/-- Two entries with identical vectors, the one with the larger id inserted
first: insertion order is [3, 1]. -/
def idxTie : hnsw_index :=
  (add_vector_to_index (add_vector_to_index (create_hnsw_index 1 2) [0] 3).2 [0] 1).2

/-- A capacity-1 index holding one entry. -/
def idxFull : hnsw_index := (add_vector_to_index (create_hnsw_index 1 1) [0] 5).2

/-- An index whose `max_elements` is the negative int -1 and whose stored
count has reached the converted threshold `2^64 - 1`. -/
def idxWrap : hnsw_index :=
  { dimensions := 1, max_elements := -1,
    vectors := List.replicate (2 ^ 64 - 1) ((0 : Int), ([0] : List ℚ)) }

/-- C8: search never mutates the index.  Whether the precondition check
fails or the query succeeds, the state coming out of
`search_vector_in_index` is the very state that went in, so the
dimensions, the capacity and the whole ordered entry sequence are
unchanged. -/
theorem search_state_unchanged (index : hnsw_index) (query : List ℚ) (k : Int) :
    (search_vector_in_index index query k).2 = index := by
  unfold search_vector_in_index
  split <;> rfl

/-- C4: a search with `k ≤ 0` or `k` greater than the stored count fails
with the InvalidArgument error (modelled as `none`) and returns no
results. -/
theorem search_invalid_k (index : hnsw_index) (query : List ℚ) (k : Int)
    (h : k ≤ 0 ∨ (index.vectors.length : Int) < k) :
    (search_vector_in_index index query k).1 = none := by
  unfold search_vector_in_index
  rw [if_pos (by omega)]

theorem search_invalid_k_witness :
    ((0 : Int) ≤ 0 ∨ ((idx3.vectors.length : Int) < 0)) ∧
    (search_vector_in_index idx3 [1, 1, 1, 1] 0).1 = none :=
  ⟨Or.inl le_rfl, search_invalid_k idx3 [1, 1, 1, 1] 0 (Or.inl le_rfl)⟩

/-- C5: whenever the precondition passes (`1 ≤ k ≤` stored count), the
search returns exactly `k` results, never fewer. -/
theorem search_returns_exactly_k (index : hnsw_index) (query : List ℚ) (k : Int)
    (h1 : 0 < k) (h2 : k.toNat ≤ index.vectors.length) :
    ∃ res, (search_vector_in_index index query k).1 = some res ∧
      (res.length : Int) = k := by
  refine ⟨_, search_eq_of_valid index query h1 h2, ?_⟩
  rw [List.length_map, List.length_take, length_sorted_dist_pairs, min_eq_left h2]
  omega

theorem search_returns_exactly_k_witness :
    (0 : Int) < 3 ∧ (3 : Int).toNat ≤ idx3.vectors.length ∧
    ∃ res, (search_vector_in_index idx3 [0, 0, 0, 0] 3).1 = some res ∧
      (res.length : Int) = 3 :=
  ⟨by norm_num, by decide,
    search_returns_exactly_k idx3 [0, 0, 0, 0] 3 (by norm_num) (by decide)⟩

/-- C7: below capacity, an insert succeeds, appends exactly the entry
`(id, first dimensions elements of the input)`, grows the stored count by
one, and leaves every previously stored entry at its previous position. -/
theorem add_success_frame (index : hnsw_index) (v : List ℚ) (id : Int)
    (h0 : 0 ≤ index.max_elements) (h64 : index.max_elements < 2 ^ 64)
    (hlt : index.vectors.length < index.max_elements.toNat)
    (_hdim : index.dimensions.toNat ≤ v.length) :
    add_vector_to_index index v id =
      (0, { index with
            vectors := index.vectors ++ [(id, v.take index.dimensions.toNat)] }) ∧
    ((add_vector_to_index index v id).2).vectors.length = index.vectors.length + 1 ∧
    ∀ i : Nat, i < index.vectors.length →
      ((add_vector_to_index index v id).2).vectors[i]? = index.vectors[i]? := by
  have hfull : ¬ (size_t_of_int index.max_elements ≤ index.vectors.length) := by
    rw [size_t_of_int_eq_toNat h0 h64]
    omega
  have heq : add_vector_to_index index v id =
      (0, { index with
            vectors := index.vectors ++ [(id, v.take index.dimensions.toNat)] }) := by
    unfold add_vector_to_index
    rw [if_neg hfull]
  refine ⟨heq, ?_, ?_⟩
  · rw [heq]; simp
  · intro i hi
    rw [heq]
    exact List.getElem?_append_left hi

theorem add_success_frame_witness :
    (0 : Int) ≤ (create_hnsw_index 4 10).max_elements ∧
    (create_hnsw_index 4 10).max_elements < 2 ^ 64 ∧
    (create_hnsw_index 4 10).vectors.length <
      (create_hnsw_index 4 10).max_elements.toNat ∧
    (create_hnsw_index 4 10).dimensions.toNat ≤ ([1, 2, 3, 4] : List ℚ).length ∧
    (add_vector_to_index (create_hnsw_index 4 10) [1, 2, 3, 4] 1 =
      (0, { create_hnsw_index 4 10 with
            vectors := (create_hnsw_index 4 10).vectors ++
              [(1, List.take (create_hnsw_index 4 10).dimensions.toNat [1, 2, 3, 4])] }) ∧
    ((add_vector_to_index (create_hnsw_index 4 10) [1, 2, 3, 4] 1).2).vectors.length =
      (create_hnsw_index 4 10).vectors.length + 1 ∧
    ∀ i : Nat, i < (create_hnsw_index 4 10).vectors.length →
      ((add_vector_to_index (create_hnsw_index 4 10) [1, 2, 3, 4] 1).2).vectors[i]? =
        (create_hnsw_index 4 10).vectors[i]?) :=
  ⟨by norm_num [create_hnsw_index], by norm_num [create_hnsw_index],
    by norm_num [create_hnsw_index], by norm_num [create_hnsw_index],
    add_success_frame (create_hnsw_index 4 10) [1, 2, 3, 4] 1
      (by norm_num [create_hnsw_index]) (by norm_num [create_hnsw_index])
      (by norm_num [create_hnsw_index]) (by norm_num [create_hnsw_index])⟩

/-- C3: with a positive (in-range) capacity, no sequence of insert calls
pushes the stored count above the capacity, and an insert attempted when
the stored count equals the capacity returns the IndexFull error `-1` and
leaves the index — count and entries — untouched. -/
theorem capacity_invariant (d c : Int) (ops : List (List ℚ × Int))
    (index : hnsw_index) (v : List ℚ) (id : Int)
    (hc : 0 < c) (hc64 : c < 2 ^ 64)
    (hm : index.max_elements = c) (hl : index.vectors.length = c.toNat) :
    (insertAll (create_hnsw_index d c) ops).vectors.length ≤ c.toNat ∧
    add_vector_to_index index v id = (-1, index) := by
  constructor
  · have h := insertAll_invariant ops (create_hnsw_index d c) (by simp [create_hnsw_index])
    have := h.1
    rw [show (create_hnsw_index d c).max_elements = c from rfl,
      size_t_of_int_eq_toNat (le_of_lt hc) hc64] at this
    exact this
  · unfold add_vector_to_index
    rw [if_pos (by rw [hm, size_t_of_int_eq_toNat (le_of_lt hc) hc64, hl])]

theorem capacity_invariant_witness :
    (0 : Int) < 1 ∧ (1 : Int) < 2 ^ 64 ∧
    idxFull.max_elements = 1 ∧ idxFull.vectors.length = (1 : Int).toNat ∧
    ((insertAll (create_hnsw_index 1 1)
        [([0], 1), ([0], 2), ([0], 3)]).vectors.length ≤ (1 : Int).toNat ∧
      add_vector_to_index idxFull [7] 9 = (-1, idxFull)) :=
  ⟨by norm_num, by norm_num, by decide, by decide,
    capacity_invariant 1 1 [([0], 1), ([0], 2), ([0], 3)] idxFull [7] 9
      (by norm_num) (by norm_num) (by decide) (by decide)⟩

/-- C2 counterexample: construction with non-positive `dimensions` (here
`0`) performs no validation and does not fail: it returns an ordinary
index handle carrying the given fields, and that handle is usable — an
insert on it succeeds with return code 0 (with `dimensions = 0` the
source's pointer-range copy is a valid empty range). -/
theorem create_no_validation_cx :
    create_hnsw_index 0 3 =
      { dimensions := 0, max_elements := 3, vectors := [] } ∧
    (add_vector_to_index (create_hnsw_index 0 3) [1] 7).1 = 0 := by
  constructor
  · rfl
  · decide

/-- C2 amended: construction never fails and performs no validation: for
any parameters, including non-positive ones, it returns an index with the
given fields and no entries; and the degenerate handle is usable — with
`dimensions = 0` and a positive capacity an insert still succeeds (return
code 0), storing an empty vector. -/
theorem create_no_validation (d c : Int) (v : List ℚ) (id : Int)
    (hd : d = 0) (hc : 0 < c) (hc64 : c < 2 ^ 64) :
    create_hnsw_index d c = { dimensions := d, max_elements := c, vectors := [] } ∧
    add_vector_to_index (create_hnsw_index d c) v id =
      (0, { dimensions := d, max_elements := c, vectors := [(id, [])] }) := by
  subst hd
  refine ⟨rfl, ?_⟩
  have hfull : ¬ (size_t_of_int (create_hnsw_index 0 c).max_elements ≤
      (create_hnsw_index 0 c).vectors.length) := by
    rw [show (create_hnsw_index 0 c).max_elements = c from rfl,
      size_t_of_int_eq_toNat (le_of_lt hc) hc64]
    simp only [create_hnsw_index, List.length_nil]
    omega
  unfold add_vector_to_index
  rw [if_neg hfull]
  simp [create_hnsw_index]

theorem create_no_validation_witness :
    (0 : Int) = 0 ∧ (0 : Int) < 5 ∧ (5 : Int) < 2 ^ 64 ∧
    (create_hnsw_index 0 5 =
        { dimensions := 0, max_elements := 5, vectors := [] } ∧
      add_vector_to_index (create_hnsw_index 0 5) [1, 2] 4 =
        (0, { dimensions := 0, max_elements := 5, vectors := [(4, [])] })) :=
  ⟨rfl, by norm_num, by norm_num,
    create_no_validation 0 5 [1, 2] 4 rfl (by norm_num) (by norm_num)⟩

/-- C10 counterexample: with a negative capacity the fullness check is not
disabled forever — the negative `int` converts to the huge `size_t`
`2^64 + max_elements`, and once the stored count reaches that threshold
(here `2^64 - 1` for capacity `-1`) the insert does return the IndexFull
error `-1` and leaves the index unchanged. -/
theorem add_negative_capacity_cx :
    add_vector_to_index idxWrap [0] 5 = (-1, idxWrap) := by
  unfold add_vector_to_index
  rw [if_pos]
  rw [show idxWrap.max_elements = -1 from rfl,
    show idxWrap.vectors.length = (List.replicate (2 ^ 64 - 1)
      ((0 : Int), ([0] : List ℚ))).length from rfl, List.length_replicate]
  unfold size_t_of_int
  norm_num

/-- C10 amended: for an index whose `max_elements` is negative (in the
`int` range), the fullness comparison converts it to the huge unsigned
value `2^64 + max_elements` (at least `2^63`), so every insert performed
while the stored count is below that threshold — any count reachable in
practice — succeeds and grows the count by one; IndexFull is never
returned at any count below `2^64 + max_elements`. -/
theorem add_negative_capacity (index : hnsw_index) (v : List ℚ) (id : Int)
    (hneg : index.max_elements < 0) (hlb : -(2 ^ 64 : Int) < index.max_elements)
    (hlen : index.vectors.length < ((2 : Int) ^ 64 + index.max_elements).toNat) :
    (add_vector_to_index index v id).1 = 0 ∧
    ((add_vector_to_index index v id).2).vectors.length =
      index.vectors.length + 1 := by
  have hth : size_t_of_int index.max_elements =
      ((2 : Int) ^ 64 + index.max_elements).toNat := by
    unfold size_t_of_int
    omega
  unfold add_vector_to_index
  rw [if_neg (by rw [hth]; omega)]
  simp

theorem add_negative_capacity_witness :
    ((create_hnsw_index 1 (-5)).max_elements < 0 ∧
      -(2 ^ 64 : Int) < (create_hnsw_index 1 (-5)).max_elements ∧
      (create_hnsw_index 1 (-5)).vectors.length <
        ((2 : Int) ^ 64 + (create_hnsw_index 1 (-5)).max_elements).toNat) ∧
    ((add_vector_to_index (create_hnsw_index 1 (-5)) [0] 1).1 = 0 ∧
      ((add_vector_to_index (create_hnsw_index 1 (-5)) [0] 1).2).vectors.length =
        (create_hnsw_index 1 (-5)).vectors.length + 1) :=
  ⟨⟨by norm_num [create_hnsw_index], by norm_num [create_hnsw_index],
      by norm_num [create_hnsw_index]⟩,
    add_negative_capacity (create_hnsw_index 1 (-5)) [0] 1
      (by norm_num [create_hnsw_index]) (by norm_num [create_hnsw_index])
      (by norm_num [create_hnsw_index])⟩

/-- Lexicographic order on real `(distance, id)` pairs: the ranking order
of the user-visible results. -/
def distLeR (a b : ℝ × Int) : Prop :=
  a.1 < b.1 ∨ (a.1 = b.1 ∧ a.2 ≤ b.2)

/-- Mapping a squared-distance key to the real `(distance, id)` pair the
source actually sorts. -/
noncomputable def sqrtPair (p : ℚ × Int) : ℝ × Int :=
  (Real.sqrt ((p.1 : ℚ) : ℝ), p.2)

/-- Monotonicity bridge: the square root is strictly monotone on
nonnegative inputs, so the lexicographic order on squared-distance keys is
exactly the lexicographic order on the source's `(sqrt, id)` pairs. -/
theorem distLe_sqrtPair {a b : ℚ × Int} (ha : 0 ≤ a.1) (h : distLe a b) :
    distLeR (sqrtPair a) (sqrtPair b) := by
  rcases h with h | ⟨h, h2⟩
  · exact Or.inl (Real.sqrt_lt_sqrt (by exact_mod_cast ha) (by exact_mod_cast h))
  · exact Or.inr ⟨by simp only [sqrtPair]; rw [h], h2⟩

/-- Sorting the squared-distance keys sorts the real pairs. -/
theorem sorted_map_sqrtPair {l : List (ℚ × Int)} (hmem : ∀ p ∈ l, 0 ≤ p.1)
    (hs : List.Sorted distLe l) : List.Sorted distLeR (l.map sqrtPair) := by
  refine List.pairwise_map.2 ?_
  exact hs.imp_of_mem fun ha hb h => distLe_sqrtPair (hmem _ ha) h

theorem mem_dist_pairs_nonneg (index : hnsw_index) (query : List ℚ) :
    ∀ p ∈ dist_pairs index query, 0 ≤ p.1 := by
  intro p hp
  simp only [dist_pairs, List.mem_map] at hp
  obtain ⟨e, _, rfl⟩ := hp
  exact sq_dist_nonneg _ _ _

theorem mem_sorted_nonneg (index : hnsw_index) (query : List ℚ) :
    ∀ p ∈ List.insertionSort distLe (dist_pairs index query), 0 ≤ p.1 :=
  fun p hp => mem_dist_pairs_nonneg index query p
    ((List.perm_insertionSort distLe (dist_pairs index query)).mem_iff.1 hp)

/-- Successful-path form of the real-distance results. -/
theorem search_results_eq_of_valid (index : hnsw_index) (query : List ℚ) {k : Int}
    (h1 : 0 < k) (h2 : k.toNat ≤ index.vectors.length) :
    search_results index query k =
      some (((List.insertionSort distLe (dist_pairs index query)).take k.toNat).map
        fun p => (p.2, Real.sqrt ((p.1 : ℚ) : ℝ))) := by
  unfold search_results
  rw [search_eq_of_valid index query h1 h2]
  simp only [Option.map_some', List.map_map]
  rfl

/-- The `(distance, id)` view of the returned results is the `sqrtPair`
image of the first `k` sorted keys. -/
theorem search_results_view (index : hnsw_index) (query : List ℚ) {k : Int}
    (h1 : 0 < k) (h2 : k.toNat ≤ index.vectors.length) (res : List (Int × ℝ))
    (hres : search_results index query k = some res) :
    res.map (fun r => (r.2, r.1)) =
      ((List.insertionSort distLe (dist_pairs index query)).take k.toNat).map sqrtPair := by
  rw [search_results_eq_of_valid index query h1 h2] at hres
  injection hres with hres
  subst hres
  rw [List.map_map]
  rfl

/-- Per-entry keys mapped through the square root are the specification's
`(Euclidean distance, id)` pairs, in storage order. -/
theorem map_sqrtPair_dist_pairs (index : hnsw_index) (query : List ℚ) :
    (dist_pairs index query).map sqrtPair =
      index.vectors.map fun e =>
        (euclidean_distance index.dimensions.toNat query e.2, e.1) := by
  unfold dist_pairs
  rw [List.map_map]
  refine List.map_congr_left fun e _ => ?_
  simp only [Function.comp_apply, sqrtPair]
  rw [sqrt_sq_dist]

/-- Sorted view of the returned result prefix. -/
theorem search_results_view_sorted (index : hnsw_index) (query : List ℚ) {k : Int}
    (h1 : 0 < k) (h2 : k.toNat ≤ index.vectors.length) (res : List (Int × ℝ))
    (hres : search_results index query k = some res) :
    List.Sorted distLeR (res.map fun r => (r.2, r.1)) := by
  rw [search_results_view index query h1 h2 res hres]
  refine sorted_map_sqrtPair ?_ ?_
  · exact fun p hp => mem_sorted_nonneg index query p ((List.take_sublist _ _).subset hp)
  · exact List.Pairwise.sublist (List.take_sublist _ _)
      (List.sorted_insertionSort distLe _)

/-- C9: equal-distance results are ordered by ascending identifier, and the
whole result is the ascending lexicographic order of the stored entries'
`(Euclidean distance, identifier)` pairs truncated to `k`: some completion
`rest` of the returned prefix is sorted with it and together they are a
permutation of all entries' pairs. -/
theorem search_lex_order (index : hnsw_index) (query : List ℚ) (k : Int)
    (h1 : 0 < k) (h2 : k.toNat ≤ index.vectors.length) :
    ∃ res rest, search_results index query k = some res ∧
      List.Sorted distLeR ((res.map fun r => (r.2, r.1)) ++ rest) ∧
      List.Perm ((res.map fun r => (r.2, r.1)) ++ rest)
        (index.vectors.map fun e =>
          (euclidean_distance index.dimensions.toNat query e.2, e.1)) := by
  obtain ⟨res, hres⟩ : ∃ res, search_results index query k = some res :=
    ⟨_, search_results_eq_of_valid index query h1 h2⟩
  refine ⟨res,
    ((List.insertionSort distLe (dist_pairs index query)).drop k.toNat).map sqrtPair,
    hres, ?_, ?_⟩
  all_goals
    rw [search_results_view index query h1 h2 res hres, ← List.map_append,
      List.take_append_drop]
  · exact sorted_map_sqrtPair (mem_sorted_nonneg index query)
      (List.sorted_insertionSort distLe _)
  · have hperm := (List.perm_insertionSort distLe (dist_pairs index query)).map sqrtPair
    rw [map_sqrtPair_dist_pairs] at hperm
    exact hperm

theorem search_lex_order_witness :
    (0 : Int) < 2 ∧ (2 : Int).toNat ≤ idx3.vectors.length ∧
    (∃ res rest, search_results idx3 [1, 2, 3, 4] 2 = some res ∧
      List.Sorted distLeR ((res.map fun r => (r.2, r.1)) ++ rest) ∧
      List.Perm ((res.map fun r => (r.2, r.1)) ++ rest)
        (idx3.vectors.map fun e =>
          (euclidean_distance idx3.dimensions.toNat [1, 2, 3, 4] e.2, e.1))) :=
  ⟨by norm_num, by decide,
    search_lex_order idx3 [1, 2, 3, 4] 2 (by norm_num) (by decide)⟩

/-- C1 amended: among equal-distance results of a valid search the order is
ascending identifier — the lexicographic `(distance, identifier)`
comparison of the sort — which agrees with insertion order only when the
earlier-inserted of two tied entries also has the smaller identifier. -/
theorem search_tie_break_by_id (index : hnsw_index) (query : List ℚ) (k : Int)
    (h1 : 0 < k) (h2 : k.toNat ≤ index.vectors.length) :
    ∃ res, search_results index query k = some res ∧
      ∀ i j : Nat, ∀ hij : i < j, ∀ hj : j < res.length,
        (res.get ⟨i, Nat.lt_trans hij hj⟩).2 = (res.get ⟨j, hj⟩).2 →
        (res.get ⟨i, Nat.lt_trans hij hj⟩).1 ≤ (res.get ⟨j, hj⟩).1 := by
  obtain ⟨res, hres⟩ : ∃ res, search_results index query k = some res :=
    ⟨_, search_results_eq_of_valid index query h1 h2⟩
  refine ⟨res, hres, ?_⟩
  intro i j hij hj hdist
  have hs := search_results_view_sorted index query h1 h2 res hres
  have hi : i < (res.map fun r => (r.2, r.1)).length := by
    rw [List.length_map]; omega
  have hj2 : j < (res.map fun r => (r.2, r.1)).length := by
    rw [List.length_map]; omega
  have hrel := hs.rel_get_of_lt (a := ⟨i, hi⟩) (b := ⟨j, hj2⟩) (Fin.mk_lt_mk.2 hij)
  simp only [List.get_eq_getElem, List.getElem_map] at hrel
  simp only [List.get_eq_getElem]
  rcases hrel with hlt | ⟨_, hle⟩
  · exact absurd (hdist ▸ hlt) (lt_irrefl _)
  · exact hle

theorem search_tie_break_by_id_witness :
    (0 : Int) < 2 ∧ (2 : Int).toNat ≤ idxTie.vectors.length ∧
    (∃ res, search_results idxTie [0] 2 = some res ∧
      ∀ i j : Nat, ∀ hij : i < j, ∀ hj : j < res.length,
        (res.get ⟨i, Nat.lt_trans hij hj⟩).2 = (res.get ⟨j, hj⟩).2 →
        (res.get ⟨i, Nat.lt_trans hij hj⟩).1 ≤ (res.get ⟨j, hj⟩).1) :=
  ⟨by norm_num, by decide,
    search_tie_break_by_id idxTie [0] 2 (by norm_num) (by decide)⟩

/-- C1 counterexample: in `idxTie` the entry with identifier 3 was inserted
before the entry with identifier 1, and both stored vectors are at
Euclidean distance 0 from the query `[0]`; yet the search returns id 1
first, so equal-distance results are not ordered by insertion order. -/
theorem search_insertion_order_cx :
    idxTie.vectors.map Prod.fst = [3, 1] ∧
    search_results idxTie [0] 2 = some [(1, 0), (3, 0)] ∧
    search_results idxTie [0] 2 ≠ some [(3, 0), (1, 0)] := by
  have hcore : (search_vector_in_index idxTie [0] 2).1 = some [(1, 0), (3, 0)] := by
    norm_num [search_vector_in_index, dist_pairs, idxTie, add_vector_to_index,
      create_hnsw_index, sq_dist, size_t_of_int, List.orderedInsert, distLe]
  refine ⟨by decide, ?_, ?_⟩
  · unfold search_results
    rw [hcore]
    norm_num
  · unfold search_results
    rw [hcore]
    simp only [Option.map_some', List.map_cons, List.map_nil, ne_eq,
      Option.some.injEq, List.cons.injEq, Prod.mk.injEq]
    norm_num

/-- C6: every result of a valid search pairs the identifier of a stored
entry with exactly the Euclidean distance between the query and that
entry's vector: the square root of the sum over the first `dimensions`
components of the squared per-component differences. -/
theorem search_distance_euclidean (index : hnsw_index) (query : List ℚ) (k : Int)
    (h1 : 0 < k) (h2 : k.toNat ≤ index.vectors.length) :
    ∃ res, search_results index query k = some res ∧
      ∀ r ∈ res, ∃ e ∈ index.vectors, r.1 = e.1 ∧
        r.2 = euclidean_distance index.dimensions.toNat query e.2 := by
  refine ⟨_, search_results_eq_of_valid index query h1 h2, ?_⟩
  intro r hr
  simp only [List.mem_map] at hr
  obtain ⟨p, hp, rfl⟩ := hr
  have hp2 : p ∈ dist_pairs index query :=
    (List.perm_insertionSort distLe _).mem_iff.1 ((List.take_sublist _ _).subset hp)
  simp only [dist_pairs, List.mem_map] at hp2
  obtain ⟨e, he, rfl⟩ := hp2
  exact ⟨e, he, rfl, sqrt_sq_dist _ _ _⟩

theorem search_distance_euclidean_witness :
    (0 : Int) < 3 ∧ (3 : Int).toNat ≤ idx3.vectors.length ∧
    (∃ res, search_results idx3 [3/2, 5/2, 7/2, 9/2] 3 = some res ∧
      ∀ r ∈ res, ∃ e ∈ idx3.vectors, r.1 = e.1 ∧
        r.2 = euclidean_distance idx3.dimensions.toNat [3/2, 5/2, 7/2, 9/2] e.2) :=
  ⟨by norm_num, by decide,
    search_distance_euclidean idx3 [3/2, 5/2, 7/2, 9/2] 3 (by norm_num) (by decide)⟩

end FlashCore
